import Mathlib

/-!
A shallow embedding of the RSA demo in `src/rsa.ts`: big-integer modular
arithmetic (`gcd`, `modPow`, `modInverse`), the Miller–Rabin primality test,
prime generation, key-pair construction with base64-encoded key tokens, the
character-wise encrypt/decrypt workers, and the console-side key validator.

Modelling conventions:
* JavaScript `BigInt` values are `Int` (or `Nat` where the source value is
  non-negative by construction); `%` and `/` on `BigInt` truncate toward
  zero, so they are rendered with `Int.tmod` / `Int.tdiv`.
* JavaScript strings are lists of UTF-16 code units (`List Nat`).
* `Math.random()` outcomes are rationals in `[0,1)` supplied through
  explicit streams, one stream per call site that consumes randomness.
* Unbounded `while` loops are phrased with an explicit structural counter
  (`fuel`) that dominates the number of iterations the source loop performs
  on the stated domain, so every definition computes by structural recursion.
-/

namespace RSA

/-- `RSA.modPow` loop body (`src/rsa.ts` lines 123-131):
`while (exponent > 0) { if (exponent & 1) result = result*base % modulus;
base = base*base % modulus; exponent >>= 1 }`.
For a positive exponent `e` the loop runs at most `log2 e + 1 ≤ e` times, so
a structural counter of `e.toNat + 1` never cuts the loop short. -/
def modPowAux (modulus : Int) : Nat → Int → Int → Int → Int
  | 0, result, _, _ => result
  | fuel + 1, result, base, exponent =>
    if 0 < exponent then
      modPowAux modulus fuel
        (if exponent.tmod 2 = 1 then (result * base).tmod modulus else result)
        ((base * base).tmod modulus)
        (exponent.tdiv 2)
    else result

/-- `RSA.modPow(base, exponent, modulus)` (`src/rsa.ts` lines 118-133).
JavaScript throws a `RangeError` on `modulus = 0` (division by zero); this
total model is faithful on `modulus ≠ 0`, the domain every theorem below
restricts to. -/
def modPow (base exponent modulus : Int) : Int :=
  modPowAux modulus (exponent.toNat + 1) 1 (base.tmod modulus) exponent

/-- `RSA.gcd` loop (`src/rsa.ts` lines 109-116):
`while (b) { const t = b; b = a % b; a = t }; return a`.
`b` strictly decreases at every iteration, so `b + 1` units of fuel suffice. -/
def gcdAux : Nat → Nat → Nat → Nat
  | 0, a, _ => a
  | fuel + 1, a, b => if b = 0 then a else gcdAux fuel b (a % b)

/-- `RSA.gcd(a, b)` (`src/rsa.ts` lines 109-116), on the non-negative inputs
the program feeds it. -/
def gcd (a b : Nat) : Nat :=
  gcdAux (b + 1) a b

/-- `RSA.modInverse` loop (`src/rsa.ts` lines 144-152):
`while (a > 1) { q = a / m; t = m; m = a % m; a = t; t = x0;
x0 = x1 - q * x0; x1 = t }`, returning the final `(a, x1)`.
`m` strictly decreases at every iteration, so `m + 1` units of fuel suffice.
When `m = 0` and `a > 1` the source divides by zero and throws; under the
division-by-zero-as-zero convention that one unrolled iteration would return
`(0, x0)`, which is what this model does (the branch is only reachable for
non-coprime inputs, outside the domain of every theorem below). -/
def egcdAux : Nat → Nat → Nat → Int → Int → Nat × Int
  | 0, a, _, _, x1 => (a, x1)
  | fuel + 1, a, m, x0, x1 =>
    if 1 < a then
      if m = 0 then (0, x0)
      else egcdAux fuel m (a % m) (x1 - ((a / m : Nat) : Int) * x0) x0
    else (a, x1)

/-- `RSA.modInverse(a, m)` (`src/rsa.ts` lines 135-159): iterative extended
Euclidean algorithm; returns `0` when `m = 1`, and otherwise the final
Bézout coefficient `x1`, shifted by `m0 = m` once if negative. -/
def modInverse (a m : Nat) : Int :=
  if m = 1 then 0
  else
    let r := egcdAux (m + 1) a m 0 1
    if r.2 < 0 then r.2 + m else r.2

/-- `minRandom = n > 10 ? n - 10 : 2` (`src/rsa.ts` line 196). -/
def millerRabinMin (n : Nat) : Int :=
  if 10 < (n : Int) then (n : Int) - 10 else 2

/-- Miller–Rabin witness draw (`src/rsa.ts` lines 196-198):
`a = BigInt(Math.floor(Math.random() * Number(n - minRandom))) + minRandom`.
The draw `r` models the `Math.random()` outcome, a value in `[0,1)`; the
`Number` conversion is exact because `n - minRandom ≤ 10`. -/
def millerRabinWitness (n : Nat) (r : ℚ) : Int :=
  ⌊r * ((((n : Int) - millerRabinMin n : Int) : ℚ))⌋ + millerRabinMin n

/-- Decomposition loop of `millerRabinPrimalityTest` (`src/rsa.ts` lines
188-193): `r = n - 1; s = 0; while (r % 2 == 0) { r >>= 1; s += 1 }`.
`r` at least halves each iteration, so `r` units of fuel suffice; the extra
`0 < r` guard only diverges from the source at `r = 0`, where the source
loops forever (unreachable: the test always starts from even `r = n - 1 ≥ 4`). -/
def oddSplitAux : Nat → Nat → Nat → Nat × Nat
  | 0, r, s => (r, s)
  | fuel + 1, r, s =>
    if r % 2 = 0 ∧ 0 < r then oddSplitAux fuel (r / 2) (s + 1) else (r, s)

/-- `n - 1 = 2^s * r` with `r` odd, as computed by the source loop. -/
def oddSplit (r : Nat) : Nat × Nat :=
  oddSplitAux r r 0

/-- Inner squaring loop of one Miller–Rabin round (`src/rsa.ts` lines
201-208): `j = 1; while (j < s && x != n-1) { x = modPow(x, 2, n);
if (x == 1) return false; j += 1 }` followed by the exit check
`if (x != n-1) return false`.  The counter is the remaining iteration
budget `s - j`, so the round passes at exhaustion only when `x = n - 1`. -/
def mrSquares (n : Nat) : Nat → Int → Bool
  | 0, x => decide (x = (n : Int) - 1)
  | rem + 1, x =>
    if x = (n : Int) - 1 then true
    else
      let x2 := modPow x 2 (n : Int)
      if x2 = 1 then false else mrSquares n rem x2

/-- One round of the Miller–Rabin loop body (`src/rsa.ts` lines 199-212) for
a witness `a`: the round passes immediately when `x = a^r mod n ∈ {1, n-1}`
and otherwise defers to the squaring loop. -/
def mrRound (n r s : Nat) (a : Int) : Bool :=
  let x := modPow a (r : Int) (n : Int)
  if x = 1 ∨ x = (n : Int) - 1 then true
  else mrSquares n (s - 1) x

/-- `RSA.millerRabinPrimalityTest(n, k = 10)` (`src/rsa.ts` lines 177-216);
`rand i` models the `Math.random()` outcome of round `i`. -/
def millerRabinPrimalityTest (n : Nat) (k : Nat) (rand : Nat → ℚ) : Bool :=
  if n < 2 then false
  else if n = 2 ∨ n = 3 then true
  else if n % 2 = 0 then false
  else
    let rs := oddSplit (n - 1)
    (List.range k).all fun i => mrRound n rs.1 rs.2 (millerRabinWitness n (rand i))

/-- `RSA.generateRandomOddNumber(bitLength)` (`src/rsa.ts` lines 169-175):
builds the binary string `"1"` followed by `bitLength - 1` characters
`Math.random() < 0.5 ? "0" : "1"` (loop index `i = 1, …, bitLength - 1`) and
parses it with `BigInt("0b" + randomBits)`, i.e. folds `acc * 2 + bit` over
the bits.  Note that only the leading bit is forced to `1`. -/
def generateRandomOddNumber (bitLength : Nat) (rand : Nat → ℚ) : Nat :=
  (List.range (bitLength - 1)).foldl
    (fun acc i => acc * 2 + (if rand (i + 1) < 1 / 2 then 0 else 1)) 1

/-- `RSA.generatePrime` loop (`src/rsa.ts` lines 161-167): an unbounded
generate-and-test `do/while`; attempt `i` draws its candidate bits from
`(rands i).1` and its Miller–Rabin witnesses from `(rands i).2`.  The fuel
bounds how many attempts are modelled; `none` means the loop is still
running beyond that horizon. -/
def generatePrimeAux (bitLength : Nat) (rands : Nat → (Nat → ℚ) × (Nat → ℚ)) :
    Nat → Nat → Option Nat
  | _, 0 => none
  | i, fuel + 1 =>
    let prime := generateRandomOddNumber bitLength (rands i).1
    if millerRabinPrimalityTest prime 10 (rands i).2 then some prime
    else generatePrimeAux bitLength rands (i + 1) fuel

/-- `RSA.generatePrime(bitLength)` (`src/rsa.ts` lines 161-167). -/
def generatePrime (bitLength : Nat) (rands : Nat → (Nat → ℚ) × (Nat → ℚ))
    (fuel : Nat) : Option Nat :=
  generatePrimeAux bitLength rands 0 fuel

/-- `RSA.PUBLIC_EXPONENT` (`src/rsa.ts` line 218). -/
def PUBLIC_EXPONENT : Nat := 65537

/-- Public-exponent search (`src/rsa.ts` lines 20-23):
`e = 65537; while (gcd(e, phi) !== 1) e = BigInt(Math.floor(Math.random() *
Number(phi)))`.  Each fallback draw `r ∈ [0,1)` yields `⌊r * phi⌋` (the
float narrowing of `Number(phi)` for very large `phi` is not modelled; no
claim exercises the fallback path); `none` models the loop still running
after the supplied draws are exhausted. -/
def selectExponentAux (phi : Nat) : Nat → List ℚ → Option Nat
  | e, draws =>
    if gcd e phi = 1 then some e
    else
      match draws with
      | [] => none
      | r :: rest => selectExponentAux phi (Int.toNat ⌊r * (phi : ℚ)⌋) rest

/-- The exponent the key generator settles on, starting from `65537`. -/
def selectExponent (phi : Nat) (draws : List ℚ) : Option Nat :=
  selectExponentAux phi PUBLIC_EXPONENT draws

/-- Decimal rendering of a natural number, digit characters `48 + d`; the
number of recursion steps is bounded by the number itself. -/
def natToDecimalAux : Nat → Nat → List Nat
  | 0, _ => []
  | fuel + 1, x =>
    if x < 10 then [48 + x] else natToDecimalAux fuel (x / 10) ++ [48 + x % 10]

/-- Decimal string of a natural number, as `${x}` renders a `BigInt`. -/
def natToDecimal (x : Nat) : List Nat :=
  natToDecimalAux (x + 1) x

/-- Decimal string of an integer, as `${x}` renders a `BigInt` (a leading
`-`, character 45, for negative values). -/
def intToDecimal (x : Int) : List Nat :=
  if x < 0 then 45 :: natToDecimal x.natAbs else natToDecimal x.toNat

/-- The base64 alphabet: sextet `i` to its character code. -/
def b64Char (i : Nat) : Nat :=
  if i < 26 then 65 + i
  else if i < 52 then 71 + i
  else if i < 62 then i - 4
  else if i = 62 then 43
  else 47

/-- Character code to sextet for base64 alphabet characters, `none` off the
alphabet. -/
def b64Index (c : Nat) : Option Nat :=
  if 65 ≤ c ∧ c ≤ 90 then some (c - 65)
  else if 97 ≤ c ∧ c ≤ 122 then some (c - 71)
  else if 48 ≤ c ∧ c ≤ 57 then some (c + 4)
  else if c = 43 then some 62
  else if c = 47 then some 63
  else none

/-- `Buffer.from(bytes).toString("base64")` (used at `src/rsa.ts` lines
27-28): standard base64 with `=` (61) padding, three bytes per four output
characters. -/
def encodeBase64 : List Nat → List Nat
  | [] => []
  | [a] => [b64Char (a / 4), b64Char (a % 4 * 16), 61, 61]
  | [a, b] => [b64Char (a / 4), b64Char (a % 4 * 16 + b / 16), b64Char (b % 16 * 4), 61]
  | a :: b :: c :: rest =>
    b64Char (a / 4) :: b64Char (a % 4 * 16 + b / 16) ::
      b64Char (b % 16 * 4 + c / 64) :: b64Char (c % 64) :: encodeBase64 rest

/-- Reassemble bytes from a sextet stream: four sextets to three bytes, a
trailing pair or triple to one or two bytes, leftover bits discarded. -/
def sextetsToBytes : List Nat → List Nat
  | s1 :: s2 :: s3 :: s4 :: rest =>
    (s1 * 4 + s2 / 16) :: (s2 % 16 * 16 + s3 / 4) :: (s3 % 4 * 64 + s4) ::
      sextetsToBytes rest
  | [s1, s2] => [s1 * 4 + s2 / 16]
  | [s1, s2, s3] => [s1 * 4 + s2 / 16, s2 % 16 * 16 + s3 / 4]
  | _ => []

/-- `Buffer.from(key, "base64").toString()` (`src/rsa.ts` lines 79-82 and
96-99): Node's lenient base64 decoder.  On the canonical tokens this program
produces (alphabet characters followed only by `=` padding) it takes the
characters before the first `=`, maps them to sextets and reassembles
bytes, discarding leftover bits. -/
def bufferBase64Decode (chars : List Nat) : List Nat :=
  sextetsToBytes ((chars.takeWhile fun c => c ≠ 61).filterMap b64Index)

/-- `str.split(",")` on a list of character codes (44 = `,`): always returns
at least one (possibly empty) field. -/
def splitComma : List Nat → List (List Nat)
  | [] => [[]]
  | c :: rest =>
    let r := splitComma rest
    if c = 44 then [] :: r else (c :: r.headI) :: r.tail

/-- Decimal digit characters. -/
def isDigit (c : Nat) : Bool :=
  decide (48 ≤ c ∧ c ≤ 57)

/-- Value of a decimal digit string. -/
def digitsToNat (s : List Nat) : Nat :=
  s.foldl (fun acc c => acc * 10 + (c - 48)) 0

/-- `BigInt(str)` on the strings this program feeds it: `""` parses to `0`,
an optional `-` (45) followed by decimal digits parses as decimal, anything
else throws a `SyntaxError` (`none`).  (The whitespace trimming and
`0x`/`0o`/`0b` prefixes `BigInt` also accepts never occur here.) -/
def parseBigInt : List Nat → Option Int
  | [] => some 0
  | c :: rest =>
    if c = 45 then
      if rest ≠ [] ∧ rest.all isDigit then some (-(digitsToNat rest : Int)) else none
    else if (c :: rest).all isDigit then some ((digitsToNat (c :: rest) : Nat) : Int)
    else none

/-- The pre-encoding key text `` `${x},${n}` `` (`src/rsa.ts` lines 27-28). -/
def keyString (x : Int) (n : Nat) : List Nat :=
  intToDecimal x ++ 44 :: natToDecimal n

/-- A serialized key token: base64 of `` `${x},${n}` ``. -/
def encodeKey (x : Int) (n : Nat) : List Nat :=
  encodeBase64 (keyString x n)

/-- `RSA.generateKeys(bitLength)` (`src/rsa.ts` lines 11-34).  `bitLength/2`
is exact for the even bit lengths the console accepts (JavaScript would pass
a fractional half-length through for odd inputs; not modelled).  The two
prime searches and the exponent fallback consume the given random sources. -/
def generateKeys (bitLength : Nat) (randsP randsQ : Nat → (Nat → ℚ) × (Nat → ℚ))
    (expDraws : List ℚ) (fuel : Nat) : Option (List Nat × List Nat) :=
  match generatePrime (bitLength / 2) randsP fuel,
      generatePrime (bitLength / 2) randsQ fuel with
  | some p, some q =>
    match selectExponent ((p - 1) * (q - 1)) expDraws with
    | some e =>
      some (encodeKey (e : Int) (p * q), encodeKey (modInverse e ((p - 1) * (q - 1))) (p * q))
    | none => none
  | _, _ => none

/-- Key-token decoding shared by both workers (`src/rsa.ts` lines 79-82 and
96-99): `Buffer.from(key, "base64").toString().split(",").map(BigInt)` and
destructuring `[e, n]`.  `map(BigInt)` throws if any field fails to parse,
and fewer than two fields leaves `n` undefined so the subsequent arithmetic
throws — both are `none`. -/
def decodeKeyFields (key : List Nat) : Option (Int × Int) :=
  match (splitComma (bufferBase64Decode key)).mapM parseBigInt with
  | some (e :: n :: _) => some (e, n)
  | _ => none

/-- The ciphertext units of `encryptWorker` (`src/rsa.ts` lines 84-88): one
`modPow(charCode, e, n)` per UTF-16 code unit of the message. -/
def encryptUnits (message : List Nat) (e n : Int) : List Int :=
  message.map fun c : Nat => modPow (c : Int) e n

/-- Ciphertext serialization (`src/rsa.ts` lines 87-89):
`` encrypted += `${encryptedChar},` `` then `encrypted.slice(0, -1)`. -/
def renderUnits (units : List Int) : List Nat :=
  ((units.map fun u => intToDecimal u ++ [44]).flatten).dropLast

/-- `RSA.encryptWorker(message, publicKey)` (`src/rsa.ts` lines 78-90). -/
def encryptWorker (message : List Nat) (publicKey : List Nat) : Option (List Nat) :=
  match decodeKeyFields publicKey with
  | some (e, n) => some (renderUnits (encryptUnits message e n))
  | none => none

/-- `RSA.decryptWorker(encryptedMessage, privateKey)` (`src/rsa.ts` lines
92-107).  `String.fromCharCode(Number(modPow(u, d, n)))` reduces its
argument modulo 2^16 (ToUint16); the `Number` narrowing is exact below 2^53
and every theorem below stays far below that. -/
def decryptWorker (encryptedMessage : List Nat) (privateKey : List Nat) :
    Option (List Nat) :=
  match decodeKeyFields privateKey with
  | some (d, n) =>
    match (splitComma encryptedMessage).mapM parseBigInt with
    | some units => some (units.map fun u => (modPow u d n % 65536).toNat)
    | none => none
  | none => none

end RSA

namespace ConsoleInterface

/-- ASCII whitespace stripped by forgiving-base64 decoding. -/
def isBase64Whitespace (c : Nat) : Bool :=
  decide (c = 9 ∨ c = 10 ∨ c = 12 ∨ c = 13 ∨ c = 32)

/-- `atob(key)` (used at `src/rsa.ts` line 315): WHATWG forgiving-base64
decode.  Strip ASCII whitespace; if the length is a multiple of four, strip
up to two trailing `=`; fail (`none`, modelling the thrown
`InvalidCharacterError`) if the remaining length is `1 mod 4` or any
remaining character is outside the base64 alphabet; otherwise reassemble
bytes, discarding leftover bits. -/
def atobDecode (s : List Nat) : Option (List Nat) :=
  let t1 := s.filter fun c => !(isBase64Whitespace c)
  let t2 :=
    if t1.length % 4 = 0 then
      match t1.reverse with
      | 61 :: 61 :: rest => rest.reverse
      | 61 :: rest => rest.reverse
      | _ => t1
    else t1
  if t2.length % 4 = 1 then none
  else if t2.all fun c => (RSA.b64Index c).isSome then
    some (RSA.sextetsToBytes (t2.filterMap RSA.b64Index))
  else none

/-- `ConsoleInterface.validateKey(key)` (`src/rsa.ts` lines 314-323):
`atob` the token (propagating its exception, `none`), split on `,` and
return whether at least two fields result. -/
def validateKey (key : List Nat) : Option Bool :=
  match atobDecode key with
  | none => none
  | some bytes => some (decide (2 ≤ (RSA.splitComma bytes).length))

end ConsoleInterface

-- Let concrete rational arithmetic (modelling `Math.random()` outcomes)
-- evaluate definitionally in `decide` proofs.
unseal Rat.mul Rat.inv

namespace RSA

/-- The fuel of `modPowAux` is irrelevant once it dominates the exponent:
with a nonnegative accumulator and base below a modulus `m > 1`, the loop
computes `result * base ^ exponent mod m`. -/
theorem modPowAux_eq (m : Int) (hm : 1 < m) :
    ∀ (fuel e : Nat) (r b : Int), e < fuel → 0 ≤ r → r < m → 0 ≤ b → b < m →
      modPowAux m fuel r b (e : Int) = (r * b ^ e) % m := by
  intro fuel
  induction fuel with
  | zero => intro e r b he; omega
  | succ fuel ih =>
    intro e r b he hr0 hrm hb0 hbm
    have hm0 : (0 : Int) < m := by omega
    have hmne : m ≠ 0 := by omega
    rcases Nat.eq_zero_or_pos e with he0 | hepos
    · subst he0
      show (if 0 < ((0 : Nat) : Int) then _ else r) = _
      rw [Nat.cast_zero, if_neg (lt_irrefl (0 : Int)), pow_zero, mul_one,
        Int.emod_eq_of_lt hr0 hrm]
    · have hcast : (0 : Int) < (e : Int) := by exact_mod_cast hepos
      have htm : ((e : Int)).tmod 2 = ((e % 2 : Nat) : Int) := (Int.ofNat_tmod e 2).symm
      have htd : ((e : Int)).tdiv 2 = ((e / 2 : Nat) : Int) := (Int.ofNat_tdiv e 2).symm
      have hfuel : e / 2 < fuel := by
        have := Nat.div_lt_self hepos (by omega : 1 < 2)
        omega
      have hbb : (b * b).tmod m = (b * b) % m :=
        Int.tmod_eq_emod (by positivity) (le_of_lt hm0)
      have hb2 : (0 : Int) ≤ (b * b).tmod m := by
        rw [hbb]; exact Int.emod_nonneg _ hmne
      have hb2m : (b * b).tmod m < m := by
        rw [hbb]; exact Int.emod_lt_of_pos _ hm0
      have hbsq : ((b * b) % m) ≡ b * b [ZMOD m] := Int.emod_emod_of_dvd _ dvd_rfl
      show (if 0 < (e : Int) then
          modPowAux m fuel (if ((e : Int)).tmod 2 = 1 then (r * b).tmod m else r)
            ((b * b).tmod m) (((e : Int)).tdiv 2) else r) = _
      rw [if_pos hcast, htm, htd]
      rcases Nat.mod_two_eq_zero_or_one e with hpar | hpar
      · rw [hpar]
        rw [if_neg (by norm_num)]
        rw [ih (e / 2) r ((b * b).tmod m) hfuel hr0 hrm hb2 hb2m, hbb]
        have heq : e = 2 * (e / 2) := by omega
        calc (r * ((b * b) % m) ^ (e / 2)) % m
            = (r * (b * b) ^ (e / 2)) % m := ((hbsq.pow (e / 2)).mul_left r)
          _ = (r * b ^ e) % m := by
              rw [show (b * b) ^ (e / 2) = b ^ e by
                rw [← pow_two, ← pow_mul, ← heq]]
      · rw [hpar]
        rw [if_pos (by norm_num)]
        have hrb : (r * b).tmod m = (r * b) % m :=
          Int.tmod_eq_emod (mul_nonneg hr0 hb0) (le_of_lt hm0)
        have hr2 : (0 : Int) ≤ (r * b).tmod m := by
          rw [hrb]; exact Int.emod_nonneg _ hmne
        have hr2m : (r * b).tmod m < m := by
          rw [hrb]; exact Int.emod_lt_of_pos _ hm0
        rw [ih (e / 2) ((r * b).tmod m) ((b * b).tmod m) hfuel hr2 hr2m hb2 hb2m,
          hrb, hbb]
        have hrbmod : ((r * b) % m) ≡ r * b [ZMOD m] := Int.emod_emod_of_dvd _ dvd_rfl
        have heq : e = 2 * (e / 2) + 1 := by omega
        calc ((r * b) % m * ((b * b) % m) ^ (e / 2)) % m
            = ((r * b) * (b * b) ^ (e / 2)) % m :=
              (hrbmod.mul (hbsq.pow (e / 2)))
          _ = (r * b ^ e) % m := by
              rw [show r * b * (b * b) ^ (e / 2) = r * b ^ e by
                conv_rhs => rw [heq]
                rw [← pow_two, pow_add, pow_mul, pow_one]; ring]

/-- A zero exponent exits the loop immediately with the accumulator. -/
theorem modPowAux_zero_exp (m r b : Int) (fuel : Nat) : modPowAux m fuel r b 0 = r := by
  cases fuel with
  | zero => rfl
  | succ fuel => simp [modPowAux]

/-- With modulus `1`, a positive exponent drives the accumulator to `0`:
the loop eventually processes a set bit and every product is reduced mod 1. -/
theorem modPowAux_one :
    ∀ (fuel e : Nat) (r b : Int), 0 < e → e < fuel → modPowAux 1 fuel r b (e : Int) = 0 := by
  intro fuel
  induction fuel with
  | zero => intro e r b he hf; omega
  | succ fuel ih =>
    intro e r b hepos he
    have hcast : (0 : Int) < (e : Int) := by exact_mod_cast hepos
    have htm : ((e : Int)).tmod 2 = ((e % 2 : Nat) : Int) := (Int.ofNat_tmod e 2).symm
    have htd : ((e : Int)).tdiv 2 = ((e / 2 : Nat) : Int) := (Int.ofNat_tdiv e 2).symm
    show (if 0 < (e : Int) then
        modPowAux 1 fuel (if ((e : Int)).tmod 2 = 1 then (r * b).tmod 1 else r)
          ((b * b).tmod 1) (((e : Int)).tdiv 2) else r) = 0
    rw [if_pos hcast, htm, htd, Int.tmod_one, Int.tmod_one]
    rcases Nat.lt_or_ge e 2 with h2 | h2
    · have he1 : e = 1 := by omega
      subst he1
      rw [if_pos (by norm_num)]
      exact modPowAux_zero_exp 1 0 0 fuel
    · have hpos : 0 < e / 2 := Nat.div_pos h2 (by omega)
      have hf : e / 2 < fuel := by
        have := Nat.div_lt_self hepos (by omega : 1 < 2)
        omega
      rcases Nat.mod_two_eq_zero_or_one e with hpar | hpar <;> rw [hpar]
      · rw [if_neg (by norm_num)]
        exact ih (e / 2) r 0 hpos hf
      · rw [if_pos (by norm_num)]
        exact ih (e / 2) 0 0 hpos hf

/-- On natural inputs with modulus above `1`, `RSA.modPow` computes ordinary
modular exponentiation. -/
theorem modPow_eq (a e n : Nat) (hn : 1 < n) :
    modPow (a : Int) (e : Int) (n : Int) = ((a ^ e % n : Nat) : Int) := by
  unfold modPow
  have hb : ((a : Int)).tmod (n : Int) = ((a % n : Nat) : Int) := (Int.ofNat_tmod a n).symm
  have hn0 : (0 : Int) < (n : Int) := by exact_mod_cast Nat.lt_of_lt_of_le Nat.zero_lt_one hn.le
  rw [Int.toNat_natCast, hb]
  rw [modPowAux_eq (n : Int) (by exact_mod_cast hn) (e + 1) e 1 ((a % n : Nat) : Int)
    (Nat.lt_succ_self e) (by norm_num) (by exact_mod_cast hn)
    (by positivity) (by exact_mod_cast Nat.mod_lt a (by omega))]
  rw [one_mul, show ((a % n : Nat) : Int) = (a : Int) % (n : Int) by push_cast; ring]
  have hmd : ((a : Int) % (n : Int)) ≡ (a : Int) [ZMOD (n : Int)] :=
    Int.emod_emod_of_dvd _ dvd_rfl
  have h1 : (((a : Int) % (n : Int)) ^ e) % (n : Int) = ((a : Int) ^ e) % (n : Int) :=
    hmd.pow e
  rw [h1]
  push_cast
  ring

/-- Range of `RSA.modPow` on its sensible domain: nonnegative base and
exponent, positive modulus, excluding the degenerate `exponent = 0` with
`modulus = 1` (where the loop never runs and `1` is returned unreduced). -/
theorem modPow_range (b e m : Int) (hb : 0 ≤ b) (he : 0 ≤ e) (hm : 0 < m)
    (h1 : 1 < m ∨ 0 < e) : 0 ≤ modPow b e m ∧ modPow b e m < m := by
  obtain ⟨k, rfl⟩ : ∃ k : Nat, e = (k : Int) := ⟨e.toNat, (Int.toNat_of_nonneg he).symm⟩
  rcases (by omega : m = 1 ∨ 1 < m) with hm1 | hm1
  · subst hm1
    have hepos : 0 < k := by
      rcases h1 with h | h
      · omega
      · exact_mod_cast h
    unfold modPow
    rw [Int.toNat_natCast, modPowAux_one (k + 1) k 1 (b.tmod 1) hepos (Nat.lt_succ_self _)]
    omega
  · have hbb : b.tmod m = b % m := Int.tmod_eq_emod hb hm.le
    have hb0 : 0 ≤ b % m := Int.emod_nonneg b (by omega)
    have hbm : b % m < m := Int.emod_lt_of_pos b hm
    unfold modPow
    rw [Int.toNat_natCast, hbb, modPowAux_eq m hm1 (k + 1) k 1 (b % m)
      (Nat.lt_succ_self _) (by norm_num) hm1 hb0 hbm]
    exact ⟨Int.emod_nonneg _ (by omega), Int.emod_lt_of_pos _ hm⟩

/-- A negative exponent never enters the loop: the unreduced accumulator `1`
is returned silently. -/
theorem modPow_neg_exp (b e m : Int) (he : e < 0) : modPow b e m = 1 := by
  unfold modPow
  rw [Int.toNat_of_nonpos he.le]
  show (if 0 < e then _ else (1 : Int)) = 1
  rw [if_neg (by omega)]

/-- A zero exponent returns `1` for every base and modulus. -/
theorem modPow_zero_exp (a m : Int) : modPow a 0 m = 1 := by
  unfold modPow
  exact modPowAux_zero_exp m 1 (a.tmod m) 1

/-- The source's `gcd` loop agrees with the mathematical gcd. -/
theorem gcdAux_eq : ∀ (fuel a b : Nat), b < fuel → gcdAux fuel a b = Nat.gcd a b := by
  intro fuel
  induction fuel with
  | zero => intro a b hb; omega
  | succ fuel ih =>
    intro a b hb
    show (if b = 0 then a else gcdAux fuel b (a % b)) = Nat.gcd a b
    by_cases h : b = 0
    · subst h; rw [if_pos rfl, Nat.gcd_zero_right]
    · rw [if_neg h, ih b (a % b) (by
        have := Nat.mod_lt a (Nat.pos_of_ne_zero h); omega)]
      rw [Nat.gcd_comm b (a % b), ← Nat.gcd_rec b a, Nat.gcd_comm b a]

/-- `RSA.gcd` is `Nat.gcd`. -/
theorem gcd_eq_natGcd (a b : Nat) : gcd a b = Nat.gcd a b :=
  gcdAux_eq (b + 1) a b (Nat.lt_succ_self b)

/-- For factors of opposite sign (or zero), the absolute value of a
difference is the sum of absolute values. -/
theorem abs_sub_of_mul_nonpos {u v : Int} (h : u * v ≤ 0) : |u - v| = |u| + |v| := by
  rcases le_total u 0 with hu | hu <;> rcases le_total v 0 with hv | hv
  · rcases mul_eq_zero.mp (le_antisymm h (by nlinarith)) with h0 | h0 <;> subst h0 <;> simp
  · rw [abs_of_nonpos hu, abs_of_nonneg hv, abs_of_nonpos (by omega : u - v ≤ 0)]; ring
  · rw [abs_of_nonneg hu, abs_of_nonpos hv, abs_of_nonneg (by omega : 0 ≤ u - v)]; ring
  · rcases mul_eq_zero.mp (le_antisymm h (mul_nonneg hu hv)) with h0 | h0 <;> subst h0 <;> simp

/-- Invariant of the `modInverse` loop.  Writing `A, M` for the original
arguments, every reachable state `(a, m, x0, x1)` of the loop satisfies
`a * |x0| + m * |x1| = M` with `x0, x1` of opposite sign,
`A * x1 ≡ a` and `A * x0 ≡ m (mod M)`, and `|x1| ≤ M`.  Consequently, for
coprime inputs the loop exits at `a = 1` with a Bézout coefficient `x1`
satisfying `A * x1 ≡ 1 (mod M)` and `|x1| ≤ M`. -/
theorem egcdAux_spec (A M : Nat) (hM : 1 < M) :
    ∀ (fuel m a : Nat) (x0 x1 : Int), m < fuel →
      Nat.gcd a m = 1 → 1 ≤ a →
      (a : Int) * |x0| + (m : Int) * |x1| = (M : Int) →
      x0 * x1 ≤ 0 →
      (A : Int) * x1 ≡ (a : Int) [ZMOD (M : Int)] →
      (A : Int) * x0 ≡ (m : Int) [ZMOD (M : Int)] →
      |x1| ≤ (M : Int) →
      (egcdAux fuel a m x0 x1).1 = 1 ∧
        (A : Int) * (egcdAux fuel a m x0 x1).2 ≡ 1 [ZMOD (M : Int)] ∧
        |(egcdAux fuel a m x0 x1).2| ≤ (M : Int) := by
  intro fuel
  induction fuel with
  | zero => intro m a x0 x1 hf; omega
  | succ fuel ih =>
    intro m a x0 x1 hf hgcd ha hE hsign hc1 hc0 hx1
    by_cases hA : 1 < a
    · by_cases hm0 : m = 0
      · exfalso
        subst hm0
        rw [Nat.gcd_zero_right] at hgcd
        omega
      · have hmpos : 0 < m := Nat.pos_of_ne_zero hm0
        have hstep : egcdAux (fuel + 1) a m x0 x1 =
            egcdAux fuel m (a % m) (x1 - ((a / m : Nat) : Int) * x0) x0 := by
          simp only [egcdAux]
          rw [if_pos hA, if_neg hm0]
        rw [hstep]
        have hq : (0 : Int) ≤ ((a / m : Nat) : Int) := by positivity
        have hdm : ((m : Int)) * ((a / m : Nat) : Int) + ((a % m : Nat) : Int) = (a : Int) := by
          exact_mod_cast Nat.div_add_mod a m
        have habs : |x1 - ((a / m : Nat) : Int) * x0| = |x1| + ((a / m : Nat) : Int) * |x0| := by
          rw [abs_sub_of_mul_nonpos (by nlinarith), abs_mul, abs_of_nonneg hq]
        refine ih (a % m) m (x1 - ((a / m : Nat) : Int) * x0) x0 ?_ ?_ hmpos ?_ ?_ ?_ ?_ ?_
        · have := Nat.mod_lt a hmpos
          omega
        · rw [Nat.gcd_comm m (a % m), ← Nat.gcd_rec m a, Nat.gcd_comm m a]
          exact hgcd
        · rw [habs, show ((a % m : Nat) : Int) = (a : Int) - ((a / m : Nat) : Int) * (m : Int) by
            linarith]
          linear_combination hE
        · nlinarith [sq_nonneg x0]
        · exact hc0
        · have h2 := hc1.sub (hc0.mul_left ((a / m : Nat) : Int))
          have h3 : (A : Int) * (x1 - ((a / m : Nat) : Int) * x0) =
              (A : Int) * x1 - ((a / m : Nat) : Int) * ((A : Int) * x0) := by ring
          rw [h3, show ((a % m : Nat) : Int) = (a : Int) - ((a / m : Nat) : Int) * (m : Int) by
            linarith]
          exact h2
        · nlinarith [abs_nonneg x0, abs_nonneg x1,
            (by exact_mod_cast ha : (1 : Int) ≤ (a : Int)),
            (by positivity : (0 : Int) ≤ (m : Int))]
    · have hstep : egcdAux (fuel + 1) a m x0 x1 = (a, x1) := by
        simp only [egcdAux]
        rw [if_neg hA]
      rw [hstep]
      have ha1 : a = 1 := by omega
      subst ha1
      exact ⟨rfl, by simpa using hc1, hx1⟩

/-- `RSA.modInverse` is correct on coprime inputs with modulus above `1`:
the result is the modular inverse, normalized into `[0, m)`. -/
theorem modInverse_correct (e phi : Nat) (hphi : 1 < phi) (h : Nat.gcd e phi = 1) :
    0 ≤ modInverse e phi ∧ modInverse e phi < (phi : Int) ∧
      ((e : Int) * modInverse e phi) % (phi : Int) = 1 := by
  have he1 : 1 ≤ e := by
    rcases Nat.eq_zero_or_pos e with h0 | h0
    · subst h0; rw [Nat.gcd_zero_left] at h; omega
    · exact h0
  have hphiZ : (1 : Int) < (phi : Int) := by exact_mod_cast hphi
  obtain ⟨hg, hcong, habs⟩ :=
    egcdAux_spec e phi hphi (phi + 1) phi e 0 1 (Nat.lt_succ_self phi) h he1
      (by simp)
      (by simp)
      (by simpa using Int.ModEq.refl (e : Int))
      (by simpa using (Int.modEq_zero_iff_dvd.mpr dvd_rfl).symm)
      (by simpa using hphiZ.le)
  set x := (egcdAux (phi + 1) e phi 0 1).2 with hx
  have hone : (1 : Int) % (phi : Int) = 1 := Int.emod_eq_of_lt (by norm_num) hphiZ
  have hxne : x ≠ (phi : Int) := by
    intro hcontra
    have := hcong
    rw [hcontra] at this
    have h0 : ((e : Int) * (phi : Int)) % (phi : Int) = 1 % (phi : Int) := this
    rw [Int.mul_emod_left, hone] at h0
    omega
  have hxnegne : x ≠ -(phi : Int) := by
    intro hcontra
    have := hcong
    rw [hcontra] at this
    have h0 : ((e : Int) * (-(phi : Int))) % (phi : Int) = 1 % (phi : Int) := this
    rw [show (e : Int) * (-(phi : Int)) = (-(e : Int)) * (phi : Int) by ring,
      Int.mul_emod_left, hone] at h0
    omega
  have habs2 : -(phi : Int) ≤ x ∧ x ≤ (phi : Int) := abs_le.mp habs
  have hunf : modInverse e phi = if x < 0 then x + (phi : Int) else x := by
    unfold modInverse
    rw [if_neg (by omega)]
  rw [hunf]
  by_cases hneg : x < 0
  · rw [if_pos hneg]
    have hmod : (x + (phi : Int)) ≡ x [ZMOD (phi : Int)] := by
      have h2 : ((phi : Int)) ≡ 0 [ZMOD (phi : Int)] := Int.modEq_zero_iff_dvd.mpr dvd_rfl
      simpa using (Int.ModEq.refl x).add h2
    have hfinal : ((e : Int) * (x + (phi : Int))) % (phi : Int) = 1 := by
      have := (hmod.mul_left (e : Int)).trans hcong
      rw [(this : ((e : Int) * (x + (phi : Int))) % (phi : Int) = 1 % (phi : Int)), hone]
    refine ⟨by omega, by omega, hfinal⟩
  · rw [if_neg hneg]
    have hfinal : ((e : Int) * x) % (phi : Int) = 1 := by
      rw [(hcong : ((e : Int) * x) % (phi : Int) = 1 % (phi : Int)), hone]
    refine ⟨by omega, by omega, hfinal⟩

/-- `RSA.modInverse(a, 1)` is `0` for every `a` (degenerate case). -/
theorem modInverse_one (a : Nat) : modInverse a 1 = 0 := by
  unfold modInverse
  rw [if_pos rfl]

/-- Every witness the Miller–Rabin draw can produce for a candidate `n > 3`
lies in `[minRandom, n)`, where `minRandom` is `n - 10` for `n > 10` and `2`
otherwise. -/
theorem millerRabinWitness_mem (n : Nat) (r : ℚ) (hn : 3 < n) (hr0 : 0 ≤ r)
    (hr1 : r < 1) :
    millerRabinMin n ≤ millerRabinWitness n r ∧ millerRabinWitness n r < (n : Int) := by
  have hn4 : (3 : Int) < (n : Int) := by exact_mod_cast hn
  have hk : (0 : Int) < (n : Int) - millerRabinMin n := by
    unfold millerRabinMin
    split <;> omega
  unfold millerRabinWitness
  have h0 : 0 ≤ ⌊r * ((((n : Int) - millerRabinMin n : Int) : ℚ))⌋ :=
    Int.floor_nonneg.mpr (mul_nonneg hr0 (by exact_mod_cast hk.le))
  have h1 : ⌊r * ((((n : Int) - millerRabinMin n : Int) : ℚ))⌋ < (n : Int) - millerRabinMin n := by
    rw [Int.floor_lt]
    calc r * ((((n : Int) - millerRabinMin n : Int) : ℚ))
        < 1 * ((((n : Int) - millerRabinMin n : Int) : ℚ)) :=
          mul_lt_mul_of_pos_right hr1 (by exact_mod_cast hk)
      _ = ((((n : Int) - millerRabinMin n : Int) : ℚ)) := one_mul _
  omega

/-- When `65537` is already coprime with `phi`, the exponent loop accepts it
at once: the result is `65537` for every sequence of fallback draws, in
particular with no draws available at all. -/
theorem selectExponent_65537 (phi : Nat) (h : Nat.gcd 65537 phi = 1) (draws : List ℚ) :
    selectExponent phi draws = some 65537 := by
  unfold selectExponent selectExponentAux PUBLIC_EXPONENT
  rw [gcd_eq_natGcd, if_pos h]

/-- Folding one more digit multiplies the accumulated value by ten. -/
theorem digitsToNat_append (l : List Nat) (d : Nat) :
    digitsToNat (l ++ [d]) = digitsToNat l * 10 + (d - 48) := by
  unfold digitsToNat
  rw [List.foldl_append]
  rfl

/-- The decimal rendering of a natural number is a nonempty digit string
whose fold-back value is the number itself. -/
theorem natToDecimalAux_spec :
    ∀ (fuel x : Nat), x < fuel →
      natToDecimalAux fuel x ≠ [] ∧
        (∀ c ∈ natToDecimalAux fuel x, 48 ≤ c ∧ c ≤ 57) ∧
        digitsToNat (natToDecimalAux fuel x) = x := by
  intro fuel
  induction fuel with
  | zero => intro x hx; omega
  | succ fuel ih =>
    intro x hx
    simp only [natToDecimalAux]
    by_cases h10 : x < 10
    · rw [if_pos h10]
      refine ⟨by simp, ?_, ?_⟩
      · intro c hc
        simp only [List.mem_singleton] at hc
        omega
      · show digitsToNat ([] ++ [48 + x]) = x
        rw [digitsToNat_append]
        simp only [digitsToNat, List.foldl_nil]
        omega
    · rw [if_neg h10]
      have hx10 : x / 10 < fuel := by
        have := Nat.div_lt_self (by omega : 0 < x) (by omega : 1 < 10)
        omega
      obtain ⟨hne, hdig, hval⟩ := ih (x / 10) hx10
      refine ⟨by simp, ?_, ?_⟩
      · intro c hc
        rcases List.mem_append.mp hc with h | h
        · exact hdig c h
        · simp only [List.mem_singleton] at h
          omega
      · rw [digitsToNat_append, hval]
        omega

/-- `natToDecimal` renders a nonempty string of decimal digit characters
that folds back to its input. -/
theorem natToDecimal_spec (x : Nat) :
    natToDecimal x ≠ [] ∧ (∀ c ∈ natToDecimal x, 48 ≤ c ∧ c ≤ 57) ∧
      digitsToNat (natToDecimal x) = x :=
  natToDecimalAux_spec (x + 1) x (Nat.lt_succ_self x)

/-- `BigInt` parsing is left inverse to decimal rendering of naturals. -/
theorem parseBigInt_natToDecimal (x : Nat) :
    parseBigInt (natToDecimal x) = some (x : Int) := by
  obtain ⟨hne, hdig, hval⟩ := natToDecimal_spec x
  obtain ⟨c, rest, hcr⟩ := List.exists_cons_of_ne_nil hne
  rw [hcr] at hdig hval
  have hc : 48 ≤ c ∧ c ≤ 57 := hdig c (List.mem_cons_self c rest)
  have hall : (c :: rest).all isDigit = true := by
    rw [List.all_eq_true]
    intro a ha
    exact decide_eq_true (hdig a ha)
  rw [hcr]
  simp only [parseBigInt]
  rw [if_neg (by omega : ¬ c = 45), if_pos hall, hval]

/-- `BigInt` parsing is left inverse to decimal rendering of integers. -/
theorem parseBigInt_intToDecimal (x : Int) :
    parseBigInt (intToDecimal x) = some x := by
  unfold intToDecimal
  by_cases hx : x < 0
  · rw [if_pos hx]
    obtain ⟨hne, hdig, hval⟩ := natToDecimal_spec x.natAbs
    have hall : (natToDecimal x.natAbs).all isDigit = true := by
      rw [List.all_eq_true]
      intro a ha
      exact decide_eq_true (hdig a ha)
    simp only [parseBigInt]
    rw [if_pos trivial, if_pos ⟨hne, hall⟩, hval]
    congr 1
    omega
  · rw [if_neg hx, parseBigInt_natToDecimal, Int.toNat_of_nonneg (not_lt.mp hx)]

/-- Decimal digit strings never contain the comma separator. -/
theorem natToDecimal_ne_comma (x : Nat) : ∀ c ∈ natToDecimal x, c ≠ 44 := by
  intro c hc
  have := (natToDecimal_spec x).2.1 c hc
  omega

/-- Rendered integers contain no comma either (the sign character is 45). -/
theorem intToDecimal_ne_comma (x : Int) : ∀ c ∈ intToDecimal x, c ≠ 44 := by
  intro c hc
  unfold intToDecimal at hc
  by_cases hx : x < 0
  · rw [if_pos hx] at hc
    rcases List.mem_cons.mp hc with h | h
    · omega
    · exact natToDecimal_ne_comma _ c h
  · rw [if_neg hx] at hc
    exact natToDecimal_ne_comma _ c hc

/-- `split(",")` always produces at least one field. -/
theorem splitComma_ne_nil : ∀ s : List Nat, splitComma s ≠ [] := by
  intro s
  cases s with
  | nil => simp [splitComma]
  | cons c rest =>
    simp only [splitComma]
    split <;> simp

/-- A comma-free string splits into the single field it is. -/
theorem splitComma_no_comma :
    ∀ s : List Nat, (∀ c ∈ s, c ≠ 44) → splitComma s = [s] := by
  intro s
  induction s with
  | nil => intro _; rfl
  | cons c rest ih =>
    intro h
    have hc : c ≠ 44 := h c (List.mem_cons_self c rest)
    simp only [splitComma]
    rw [ih (fun a ha => h a (List.mem_cons_of_mem c ha)), if_neg hc]
    rfl

/-- Splitting at the first comma of a well-placed separator. -/
theorem splitComma_append (xs ys : List Nat) (h : ∀ c ∈ xs, c ≠ 44) :
    splitComma (xs ++ 44 :: ys) = xs :: splitComma ys := by
  induction xs with
  | nil =>
    show splitComma (44 :: ys) = [] :: splitComma ys
    simp only [splitComma]
    rw [if_pos trivial]
  | cons c xs ih =>
    have hc : c ≠ 44 := h c (List.mem_cons_self c xs)
    show splitComma (c :: (xs ++ 44 :: ys)) = (c :: xs) :: splitComma ys
    simp only [splitComma]
    rw [ih (fun a ha => h a (List.mem_cons_of_mem c ha)), if_neg hc]
    rfl

/-- Serializing a nonempty unit list and re-splitting it recovers the
rendered units: `renderUnits` is `intercalate ","` in disguise. -/
theorem splitComma_renderUnits :
    ∀ us : List Int, us ≠ [] → splitComma (renderUnits us) = us.map intToDecimal := by
  intro us
  induction us with
  | nil => intro h; exact absurd rfl h
  | cons u rest ih =>
    intro _
    by_cases hrest : rest = []
    · subst hrest
      show splitComma (((intToDecimal u ++ [44]) ++ []).dropLast) = [intToDecimal u]
      rw [List.append_nil, List.dropLast_concat]
      exact splitComma_no_comma _ (intToDecimal_ne_comma u)
    · have hflat : ((rest.map fun v => intToDecimal v ++ [44]).flatten) ≠ [] := by
        obtain ⟨v, vs, rfl⟩ := List.exists_cons_of_ne_nil hrest
        simp only [List.map_cons, List.flatten_cons]
        intro hcontra
        rw [List.append_assoc] at hcontra
        have := List.append_eq_nil.mp hcontra
        simp at this
      show splitComma (((intToDecimal u ++ [44]) ++
          (rest.map fun v => intToDecimal v ++ [44]).flatten).dropLast) =
        intToDecimal u :: rest.map intToDecimal
      rw [List.dropLast_append_of_ne_nil _ hflat, List.append_assoc]
      show splitComma (intToDecimal u ++ 44 :: renderUnits rest) = _
      rw [splitComma_append _ _ (intToDecimal_ne_comma u), ih hrest]

/-- Alphabet characters decode back to their sextet. -/
theorem b64Index_b64Char : ∀ i : Nat, i < 64 → b64Index (b64Char i) = some i := by decide

/-- Alphabet characters are never the padding character `=` (61). -/
theorem b64Char_ne_61 : ∀ i : Nat, i < 64 → b64Char i ≠ 61 := by decide

/-- Node's lenient base64 decoder inverts base64 encoding on byte lists. -/
theorem bufferBase64Decode_encodeBase64 :
    ∀ bs : List Nat, (∀ b ∈ bs, b < 256) → bufferBase64Decode (encodeBase64 bs) = bs
  | [], _ => rfl
  | [a], h => by
    have ha : a < 256 := h a (by simp)
    have h1 : a / 4 < 64 := by omega
    have h2 : a % 4 * 16 < 64 := by omega
    show bufferBase64Decode [b64Char (a / 4), b64Char (a % 4 * 16), 61, 61] = [a]
    unfold bufferBase64Decode
    rw [List.takeWhile_cons_of_pos (by simpa using b64Char_ne_61 _ h1),
      List.takeWhile_cons_of_pos (by simpa using b64Char_ne_61 _ h2),
      List.takeWhile_cons_of_neg (by simp)]
    rw [List.filterMap_cons_some (b64Index_b64Char _ h1),
      List.filterMap_cons_some (b64Index_b64Char _ h2), List.filterMap_nil]
    show [a / 4 * 4 + a % 4 * 16 / 16] = [a]
    congr 1
    omega
  | [a, b], h => by
    have ha : a < 256 := h a (by simp)
    have hb : b < 256 := h b (by simp)
    have h1 : a / 4 < 64 := by omega
    have h2 : a % 4 * 16 + b / 16 < 64 := by omega
    have h3 : b % 16 * 4 < 64 := by omega
    show bufferBase64Decode
        [b64Char (a / 4), b64Char (a % 4 * 16 + b / 16), b64Char (b % 16 * 4), 61] = [a, b]
    unfold bufferBase64Decode
    rw [List.takeWhile_cons_of_pos (by simpa using b64Char_ne_61 _ h1),
      List.takeWhile_cons_of_pos (by simpa using b64Char_ne_61 _ h2),
      List.takeWhile_cons_of_pos (by simpa using b64Char_ne_61 _ h3),
      List.takeWhile_cons_of_neg (by simp)]
    rw [List.filterMap_cons_some (b64Index_b64Char _ h1),
      List.filterMap_cons_some (b64Index_b64Char _ h2),
      List.filterMap_cons_some (b64Index_b64Char _ h3), List.filterMap_nil]
    show [a / 4 * 4 + (a % 4 * 16 + b / 16) / 16,
      (a % 4 * 16 + b / 16) % 16 * 16 + b % 16 * 4 / 4] = [a, b]
    have e1 : a / 4 * 4 + (a % 4 * 16 + b / 16) / 16 = a := by omega
    have e2 : (a % 4 * 16 + b / 16) % 16 * 16 + b % 16 * 4 / 4 = b := by omega
    rw [e1, e2]
  | a :: b :: c :: rest, h => by
    have ha : a < 256 := h a (by simp)
    have hb : b < 256 := h b (by simp)
    have hc : c < 256 := h c (by simp)
    have h1 : a / 4 < 64 := by omega
    have h2 : a % 4 * 16 + b / 16 < 64 := by omega
    have h3 : b % 16 * 4 + c / 64 < 64 := by omega
    have h4 : c % 64 < 64 := by omega
    have ih := bufferBase64Decode_encodeBase64 rest (fun x hx => h x (by simp [hx]))
    show bufferBase64Decode (b64Char (a / 4) :: b64Char (a % 4 * 16 + b / 16) ::
      b64Char (b % 16 * 4 + c / 64) :: b64Char (c % 64) :: encodeBase64 rest) =
      a :: b :: c :: rest
    unfold bufferBase64Decode at ih ⊢
    rw [List.takeWhile_cons_of_pos (by simpa using b64Char_ne_61 _ h1),
      List.takeWhile_cons_of_pos (by simpa using b64Char_ne_61 _ h2),
      List.takeWhile_cons_of_pos (by simpa using b64Char_ne_61 _ h3),
      List.takeWhile_cons_of_pos (by simpa using b64Char_ne_61 _ h4)]
    rw [List.filterMap_cons_some (b64Index_b64Char _ h1),
      List.filterMap_cons_some (b64Index_b64Char _ h2),
      List.filterMap_cons_some (b64Index_b64Char _ h3),
      List.filterMap_cons_some (b64Index_b64Char _ h4)]
    show (a / 4 * 4 + (a % 4 * 16 + b / 16) / 16) ::
      ((a % 4 * 16 + b / 16) % 16 * 16 + (b % 16 * 4 + c / 64) / 4) ::
      ((b % 16 * 4 + c / 64) % 4 * 64 + c % 64) ::
      sextetsToBytes (((encodeBase64 rest).takeWhile fun c => c ≠ 61).filterMap b64Index) =
      a :: b :: c :: rest
    have e1 : a / 4 * 4 + (a % 4 * 16 + b / 16) / 16 = a := by omega
    have e2 : (a % 4 * 16 + b / 16) % 16 * 16 + (b % 16 * 4 + c / 64) / 4 = b := by omega
    have e3 : (b % 16 * 4 + c / 64) % 4 * 64 + c % 64 = c := by omega
    rw [e1, e2, e3, ih]
termination_by bs => bs.length

/-- Every byte of the pre-encoding key text is a valid byte. -/
theorem keyString_lt_256 (x : Int) (n : Nat) : ∀ b ∈ keyString x n, b < 256 := by
  intro b hb
  unfold keyString at hb
  rcases List.mem_append.mp hb with h | h
  · unfold intToDecimal at h
    by_cases hx : x < 0
    · rw [if_pos hx] at h
      rcases List.mem_cons.mp h with h0 | h0
      · omega
      · have := (natToDecimal_spec x.natAbs).2.1 b h0
        omega
    · rw [if_neg hx] at h
      have := (natToDecimal_spec x.toNat).2.1 b h
      omega
  · rcases List.mem_cons.mp h with h0 | h0
    · omega
    · have := (natToDecimal_spec n).2.1 b h0
      omega

/-- Decoding a key token produced by `generateKeys` recovers the exponent
and the modulus. -/
theorem decodeKeyFields_encodeKey (x : Int) (n : Nat) :
    decodeKeyFields (encodeKey x n) = some (x, (n : Int)) := by
  unfold decodeKeyFields encodeKey
  rw [bufferBase64Decode_encodeBase64 _ (keyString_lt_256 x n)]
  unfold keyString
  rw [splitComma_append _ _ (intToDecimal_ne_comma x),
    splitComma_no_comma _ (natToDecimal_ne_comma n)]
  rw [List.mapM_cons, List.mapM_cons, List.mapM_nil,
    parseBigInt_intToDecimal, parseBigInt_natToDecimal]
  rfl

/-- Parsing inverts printing, lifted to lists of units. -/
theorem mapM_parseBigInt_map_intToDecimal :
    ∀ us : List Int, (us.map intToDecimal).mapM parseBigInt = some us := by
  intro us
  induction us with
  | nil => rfl
  | cons u us ih =>
    rw [List.map_cons, List.mapM_cons, parseBigInt_intToDecimal, ih]
    rfl

/-- Mapping a pointwise left inverse over a mapped list is the identity. -/
theorem map_map_id {α β : Type} (f : α → β) (g : β → α) (l : List α)
    (h : ∀ a ∈ l, g (f a) = a) : (l.map f).map g = l := by
  induction l with
  | nil => rfl
  | cons a l ih =>
    rw [List.map_cons, List.map_cons, h a (List.mem_cons_self a l),
      ih fun x hx => h x (List.mem_cons_of_mem a hx)]

/-- Fermat/CRT correctness of textbook RSA: for distinct primes `p ≠ q` and
exponents with `e * d ≡ 1 (mod (p-1)(q-1))`, the map `c ↦ c^(e·d) mod pq`
fixes every `c < p*q`. -/
theorem rsa_pow_roundtrip (p q e d c : Nat) (hp : p.Prime) (hq : q.Prime)
    (hne : p ≠ q) (hed : e * d ≡ 1 [MOD (p - 1) * (q - 1)]) (hc : c < p * q) :
    (c ^ (e * d)) % (p * q) = c := by
  have hp2 := hp.two_le
  have hq2 := hq.two_le
  have hphi : 2 ≤ (p - 1) * (q - 1) := by
    rcases Nat.lt_or_ge p 3 with h3 | h3
    · have hpe : p = 2 := by omega
      have hq3 : 3 ≤ q := by
        by_contra hcon
        exact hne (by omega)
      rw [hpe]
      norm_num
      omega
    · exact le_trans (by norm_num : (2 : Nat) ≤ 2 * 1)
        (Nat.mul_le_mul (by omega) (by omega))
  have h1mod : 1 % ((p - 1) * (q - 1)) = 1 := Nat.mod_eq_of_lt (by omega)
  have hedm : (e * d) % ((p - 1) * (q - 1)) = 1 := by
    have h2 : (e * d) % ((p - 1) * (q - 1)) = 1 % ((p - 1) * (q - 1)) := hed
    rw [h1mod] at h2
    exact h2
  have hed1 : 1 ≤ e * d := by
    by_contra hcon
    push_neg at hcon
    have h0 : e * d = 0 := by omega
    rw [h0, Nat.zero_mod] at hedm
    omega
  obtain ⟨t, ht⟩ := (Nat.modEq_iff_dvd' hed1).mp hed.symm
  have hedeqp : e * d = 1 + (p - 1) * ((q - 1) * t) := by
    rw [← mul_assoc]
    omega
  have hedeqq : e * d = 1 + (q - 1) * ((p - 1) * t) := by
    rw [show (q - 1) * ((p - 1) * t) = (p - 1) * (q - 1) * t by ring]
    omega
  have hmodp : c ^ (e * d) ≡ c [MOD p] := by
    haveI := Fact.mk hp
    have hz : ((c : ZMod p)) ^ (e * d) = (c : ZMod p) := by
      by_cases hc0 : (c : ZMod p) = 0
      · rw [hc0, zero_pow (by omega : e * d ≠ 0)]
      · rw [hedeqp, pow_add, pow_one, pow_mul, ZMod.pow_card_sub_one_eq_one hc0,
          one_pow, mul_one]
    exact (ZMod.natCast_eq_natCast_iff _ _ _).mp (by rw [Nat.cast_pow]; exact hz)
  have hmodq : c ^ (e * d) ≡ c [MOD q] := by
    haveI := Fact.mk hq
    have hz : ((c : ZMod q)) ^ (e * d) = (c : ZMod q) := by
      by_cases hc0 : (c : ZMod q) = 0
      · rw [hc0, zero_pow (by omega : e * d ≠ 0)]
      · rw [hedeqq, pow_add, pow_one, pow_mul, ZMod.pow_card_sub_one_eq_one hc0,
          one_pow, mul_one]
    exact (ZMod.natCast_eq_natCast_iff _ _ _).mp (by rw [Nat.cast_pow]; exact hz)
  have hcop : Nat.Coprime p q := (Nat.coprime_primes hp hq).mpr hne
  have hmodpq : c ^ (e * d) ≡ c [MOD p * q] :=
    (Nat.modEq_and_modEq_iff_modEq_mul hcop).mp ⟨hmodp, hmodq⟩
  calc (c ^ (e * d)) % (p * q) = c % (p * q) := hmodpq
    _ = c := Nat.mod_eq_of_lt hc

/-- End-to-end round trip through the serialized workers, for a nonempty
message under a key pair built from distinct primes. -/
theorem workers_roundtrip (p q e d : Nat) (m : List Nat) (hp : p.Prime)
    (hq : q.Prime) (hne : p ≠ q) (hed : e * d ≡ 1 [MOD (p - 1) * (q - 1)])
    (hm : m ≠ []) (hcode : ∀ c ∈ m, c < p * q) (hchar : ∀ c ∈ m, c < 65536) :
    (encryptWorker m (encodeKey (e : Int) (p * q))).bind
      (fun ct => decryptWorker ct (encodeKey (d : Int) (p * q))) = some m := by
  have h4 : 4 ≤ p * q := Nat.mul_le_mul hp.two_le hq.two_le
  have hn1 : 1 < p * q := by omega
  unfold encryptWorker
  rw [decodeKeyFields_encodeKey]
  show (decryptWorker (renderUnits (encryptUnits m (e : Int) ((p * q : Nat) : Int)))
    (encodeKey (d : Int) (p * q))) = some m
  unfold decryptWorker
  rw [decodeKeyFields_encodeKey]
  have hunits_ne : encryptUnits m (e : Int) ((p * q : Nat) : Int) ≠ [] := by
    unfold encryptUnits
    intro hcon
    rw [List.map_eq_nil_iff] at hcon
    exact hm hcon
  rw [splitComma_renderUnits _ hunits_ne, mapM_parseBigInt_map_intToDecimal]
  show some ((encryptUnits m (e : Int) ((p * q : Nat) : Int)).map
    fun u => (modPow u (d : Int) ((p * q : Nat) : Int) % 65536).toNat) = some m
  congr 1
  unfold encryptUnits
  apply map_map_id
  intro c hcm
  show (modPow (modPow (c : Int) (e : Int) ((p * q : Nat) : Int)) (d : Int)
    ((p * q : Nat) : Int) % 65536).toNat = c
  rw [modPow_eq c e (p * q) hn1, modPow_eq (c ^ e % (p * q)) d (p * q) hn1,
    ← Nat.pow_mod, ← pow_mul, rsa_pow_roundtrip p q e d c hp hq hne hed (hcode c hcm)]
  rw [Int.emod_eq_of_lt (by positivity) (by exact_mod_cast hchar c hcm),
    Int.toNat_natCast]

/-- Every unit the encryption loop appends is reduced modulo `n`: it is
nonnegative and below the modulus (for a negative exponent the loop never
runs and the unit is the in-range constant `1`). -/
theorem encryptUnits_range (msg : List Nat) (e n : Int) (hn : 1 < n) :
    ∀ u ∈ encryptUnits msg e n, 0 ≤ u ∧ u < n := by
  intro u hu
  unfold encryptUnits at hu
  obtain ⟨c, hcm, rfl⟩ := List.mem_map.mp hu
  rcases lt_or_le e 0 with he | he
  · rw [modPow_neg_exp _ _ _ he]
    omega
  · exact modPow_range (c : Int) e n (by positivity) he (by omega) (Or.inl hn)

/-- `split(",")` yields at least two fields exactly when the string contains
a comma. -/
theorem splitComma_two_le_iff : ∀ s : List Nat, 2 ≤ (splitComma s).length ↔ 44 ∈ s := by
  intro s
  induction s with
  | nil => simp [splitComma]
  | cons c rest ih =>
    simp only [splitComma]
    by_cases hc : c = 44
    · rw [if_pos hc]
      subst hc
      constructor
      · intro _
        exact List.mem_cons_self _ _
      · intro _
        have h1 : 1 ≤ (splitComma rest).length := by
          cases hsp : splitComma rest with
          | nil => exact absurd hsp (splitComma_ne_nil rest)
          | cons a l => simp
        simp only [List.length_cons]
        omega
    · rw [if_neg hc]
      have hlen : ((c :: (splitComma rest).headI) :: (splitComma rest).tail).length =
          (splitComma rest).length := by
        cases hsp : splitComma rest with
        | nil => exact absurd hsp (splitComma_ne_nil rest)
        | cons a l => simp
      rw [hlen, ih]
      constructor
      · intro h
        exact List.mem_cons_of_mem c h
      · intro h
        rcases List.mem_cons.mp h with h0 | h0
        · exact absurd h0.symm hc
        · exact h0

/-- Encrypting the empty message yields the empty ciphertext token. -/
theorem encryptWorker_empty (x : Int) (n : Nat) :
    encryptWorker [] (encodeKey x n) = some [] := by
  unfold encryptWorker
  rw [decodeKeyFields_encodeKey]
  rfl

/-- Decrypting the empty token under any real private key yields the
one-character string of code point `0`: the empty string splits into one
empty field, `BigInt("")` is `0`, and `0^d mod n = 0` for `d ≥ 1`. -/
theorem decryptWorker_empty (d n : Nat) (hd : 1 ≤ d) (hn : 1 < n) :
    decryptWorker [] (encodeKey (d : Int) n) = some [0] := by
  unfold decryptWorker
  rw [decodeKeyFields_encodeKey]
  have h1 : (splitComma ([] : List Nat)).mapM parseBigInt = some [(0 : Int)] := by decide
  rw [h1]
  show some ([(0 : Int)].map fun u => (modPow u (d : Int) (n : Int) % 65536).toNat) = some [0]
  have h2 : modPow ((0 : Nat) : Int) (d : Int) (n : Int) = ((0 : Nat) : Int) := by
    rw [modPow_eq 0 d n hn, Nat.zero_pow (by omega : 0 < d), Nat.zero_mod]
  rw [List.map_cons, List.map_nil]
  rw [show ((0 : Int)) = (((0 : Nat)) : Int) from rfl, h2]
  rfl

/-- Whatever exponent the search loop accepts is coprime with `phi`. -/
theorem selectExponentAux_sound (phi : Nat) :
    ∀ (draws : List ℚ) (e e' : Nat), selectExponentAux phi e draws = some e' →
      Nat.gcd e' phi = 1 := by
  intro draws
  induction draws with
  | nil =>
    intro e e' h
    simp only [selectExponentAux] at h
    by_cases hg : gcd e phi = 1
    · rw [if_pos hg] at h
      cases h
      rw [← gcd_eq_natGcd]
      exact hg
    · rw [if_neg hg] at h
      cases h
  | cons r rest ih =>
    intro e e' h
    simp only [selectExponentAux] at h
    by_cases hg : gcd e phi = 1
    · rw [if_pos hg] at h
      cases h
      rw [← gcd_eq_natGcd]
      exact hg
    · rw [if_neg hg] at h
      exact ih _ e' h

/-- Key pairs really produced by `generateKeys` round-trip every nonempty
plaintext whose code points fit below the modulus, provided the two accepted
candidates are genuinely prime and distinct. -/
theorem generateKeys_roundTrip (bitLength fuel : Nat)
    (rp rq : Nat → (Nat → ℚ) × (Nat → ℚ)) (expDraws : List ℚ) (p q : Nat)
    (pub priv : List Nat) (m : List Nat)
    (hgen : generateKeys bitLength rp rq expDraws fuel = some (pub, priv))
    (hp : generatePrime (bitLength / 2) rp fuel = some p)
    (hq : generatePrime (bitLength / 2) rq fuel = some q)
    (hprime_p : p.Prime) (hprime_q : q.Prime) (hne : p ≠ q)
    (hm : m ≠ []) (hcode : ∀ c ∈ m, c < p * q) (hchar : ∀ c ∈ m, c < 65536) :
    (encryptWorker m pub).bind (fun ct => decryptWorker ct priv) = some m := by
  have hp2 := hprime_p.two_le
  have hq2 := hprime_q.two_le
  have hphi : 1 < (p - 1) * (q - 1) := by
    rcases Nat.lt_or_ge p 3 with h3 | h3
    · have hpe : p = 2 := by omega
      have hq3 : 3 ≤ q := by
        by_contra hcon
        exact hne (by omega)
      rw [hpe]
      norm_num
      omega
    · exact lt_of_lt_of_le (by norm_num : (1 : Nat) < 2 * 1)
        (Nat.mul_le_mul (by omega) (by omega))
  unfold generateKeys at hgen
  simp only [hp, hq] at hgen
  cases hsel : selectExponent ((p - 1) * (q - 1)) expDraws with
  | none =>
    rw [hsel] at hgen
    cases hgen
  | some e =>
    simp only [hsel, Option.some.injEq, Prod.mk.injEq] at hgen
    have hcop : Nat.gcd e ((p - 1) * (q - 1)) = 1 :=
      selectExponentAux_sound ((p - 1) * (q - 1)) expDraws PUBLIC_EXPONENT e hsel
    obtain ⟨hx0, hxlt, hxmod⟩ := modInverse_correct e ((p - 1) * (q - 1)) hphi hcop
    set x := modInverse e ((p - 1) * (q - 1)) with hxdef
    have hpub : pub = encodeKey (e : Int) (p * q) := hgen.1.symm
    have hpriv : priv = encodeKey x (p * q) := hgen.2.symm
    have hxcast : ((x.toNat : Nat) : Int) = x := Int.toNat_of_nonneg hx0
    have hed : e * x.toNat ≡ 1 [MOD (p - 1) * (q - 1)] := by
      show (e * x.toNat) % ((p - 1) * (q - 1)) = 1 % ((p - 1) * (q - 1))
      have hcastmod : (((e * x.toNat) % ((p - 1) * (q - 1)) : Nat) : Int) =
          ((e : Int) * x) % (((p - 1) * (q - 1) : Nat) : Int) := by
        push_cast [hxcast]
        ring_nf
      have h1m : 1 % ((p - 1) * (q - 1)) = 1 := Nat.mod_eq_of_lt hphi
      rw [h1m]
      have : (((e * x.toNat) % ((p - 1) * (q - 1)) : Nat) : Int) = 1 := by
        rw [hcastmod, hxmod]
      exact_mod_cast this
    rw [hpub, hpriv, ← hxcast]
    exact workers_roundtrip p q e x.toNat m hprime_p hprime_q hne hed hm hcode hchar

end RSA

namespace RSA

/-- A stream of valid `Math.random()` outcomes (all in `[0,1)`) whose bit
draws produce the 4-bit candidate `11` (binary `1011`). -/
def bitsEleven : Nat → ℚ :=
  fun i => if i = 1 then 0 else 3 / 4

/-- Bit draws producing the 4-bit candidate `13` (binary `1101`). -/
def bitsThirteen : Nat → ℚ :=
  fun i => if i = 2 then 0 else 3 / 4

/-- The all-zero draw stream (every outcome `0 ∈ [0,1)`). -/
def zeroDraws : Nat → ℚ :=
  fun _ => 0

/-- Random sources for a prime search that generates `11` on its first
attempt, with all Miller–Rabin witnesses drawn at the bottom of the
interval. -/
def randsEleven : Nat → (Nat → ℚ) × (Nat → ℚ) :=
  fun _ => (bitsEleven, zeroDraws)

/-- Random sources for a prime search that generates `13` on its first
attempt. -/
def randsThirteen : Nat → (Nat → ℚ) × (Nat → ℚ) :=
  fun _ => (bitsThirteen, zeroDraws)

/-- Claim C1 (counterexample): with explicit `Math.random()` outcomes (all
in `[0,1)`), `generateKeys` produces the key pair for `p = 11`, `q = 13`
(`e = 65537`, `d = 113`, `n = 143`), yet the round trip on the empty
plaintext — whose code points vacuously all lie below `n` — returns the
one-character string of code point `0` instead of the empty string. -/
theorem roundTrip_fails_on_empty_plaintext :
    generateKeys 8 randsEleven randsThirteen [] 1 =
      some (encodeKey 65537 143, encodeKey 113 143) ∧
    generatePrime 4 randsEleven 1 = some 11 ∧
    generatePrime 4 randsThirteen 1 = some 13 ∧
    (encryptWorker [] (encodeKey 65537 143)).bind
      (fun ct => decryptWorker ct (encodeKey 113 143)) = some [0] ∧
    some [(0 : Nat)] ≠ some ([] : List Nat) :=
  ⟨by decide, by decide, by decide, by decide, by decide⟩

/-- Claim C1 (amended): for every key pair `generateKeys` produces from two
accepted candidates `p ≠ q` that are genuinely prime — the probabilistic
Miller–Rabin filter can also accept composites or repeat a prime, which the
original claim overlooks — and every nonempty plaintext `m` whose code
points all lie below `n = p·q`, decrypting the encryption of `m` returns
`m` (the empty plaintext fails: see the counterexample). -/
theorem roundTrip_claim (bitLength fuel : Nat)
    (rp rq : Nat → (Nat → ℚ) × (Nat → ℚ)) (expDraws : List ℚ) (p q : Nat)
    (pub priv : List Nat) (m : List Nat)
    (hgen : generateKeys bitLength rp rq expDraws fuel = some (pub, priv))
    (hp : generatePrime (bitLength / 2) rp fuel = some p)
    (hq : generatePrime (bitLength / 2) rq fuel = some q)
    (hprime_p : p.Prime) (hprime_q : q.Prime) (hne : p ≠ q)
    (hm : m ≠ []) (hcode : ∀ c ∈ m, c < p * q) (hchar : ∀ c ∈ m, c < 65536) :
    (encryptWorker m pub).bind (fun ct => decryptWorker ct priv) = some m :=
  generateKeys_roundTrip bitLength fuel rp rq expDraws p q pub priv m hgen hp hq
    hprime_p hprime_q hne hm hcode hchar

/-- Witness for the amended claim C1 at the concrete generated key pair
`(p, q) = (11, 13)` and the plaintext `"Hi"` (`[72, 105]`). -/
theorem roundTrip_claim_witness :
    (generateKeys 8 randsEleven randsThirteen [] 1 =
        some (encodeKey 65537 143, encodeKey 113 143) ∧
      generatePrime (8 / 2) randsEleven 1 = some 11 ∧
      generatePrime (8 / 2) randsThirteen 1 = some 13 ∧
      Nat.Prime 11 ∧ Nat.Prime 13 ∧ 11 ≠ 13 ∧
      ([72, 105] : List Nat) ≠ [] ∧
      (∀ c ∈ ([72, 105] : List Nat), c < 11 * 13) ∧
      (∀ c ∈ ([72, 105] : List Nat), c < 65536)) ∧
    (encryptWorker [72, 105] (encodeKey 65537 143)).bind
      (fun ct => decryptWorker ct (encodeKey 113 143)) = some [72, 105] :=
  ⟨⟨by decide, by decide, by decide, by decide, by decide, by decide, by decide,
      by decide, by decide⟩,
    roundTrip_claim 8 1 randsEleven randsThirteen [] 11 13
      (encodeKey 65537 143) (encodeKey 113 143) [72, 105]
      (by decide) (by decide) (by decide) (by decide) (by decide) (by decide)
      (by decide) (by decide) (by decide)⟩

/-- Claim C2: `modInverse` computes the unique modular inverse: for coprime
`e, phi` with `phi > 1` the result `x` satisfies `(e * x) mod phi = 1` and
`0 ≤ x < phi`; and `modInverse(a, 1) = 0` for every `a`. -/
theorem modInverse_claim :
    (∀ e phi : Nat, Nat.Coprime e phi → 1 < phi →
      ((e : Int) * modInverse e phi) % (phi : Int) = 1 ∧
        0 ≤ modInverse e phi ∧ modInverse e phi < (phi : Int)) ∧
    ∀ a : Nat, modInverse a 1 = 0 := by
  constructor
  · intro e phi hcop hphi
    obtain ⟨h1, h2, h3⟩ := modInverse_correct e phi hphi hcop
    exact ⟨h3, h1, h2⟩
  · exact modInverse_one

/-- Witness for claim C2 at `e = 17`, `phi = 120` and at `a = 7`, `m = 1`. -/
theorem modInverse_claim_witness :
    (Nat.Coprime 17 120 ∧ 1 < 120 ∧
      (((17 : Nat) : Int) * modInverse 17 120) % ((120 : Nat) : Int) = 1 ∧
      0 ≤ modInverse 17 120 ∧ modInverse 17 120 < ((120 : Nat) : Int)) ∧
    modInverse 7 1 = 0 :=
  ⟨⟨by decide, by decide, modInverse_claim.1 17 120 (by decide) (by decide)⟩,
    modInverse_claim.2 7⟩

/-- Claim C3 (counterexample): `modPow` can return values outside
`[0, modulus-1]`: a negative base yields a negative result (JavaScript `%`
truncates toward zero), and at `modulus = 1`, `exponent = 0` the loop never
runs and the unreduced accumulator `1` is returned. -/
theorem modPow_range_counterexample :
    modPow (-3) 1 5 = -3 ∧ ¬ (0 ≤ modPow (-3) 1 5) ∧
      modPow 7 0 1 = 1 ∧ ¬ (modPow 7 0 1 < 1) :=
  ⟨by decide, by decide, by decide, by decide⟩

/-- Claim C3 (amended): for every nonnegative base, nonnegative exponent and
positive modulus — excluding the degenerate `exponent = 0` with
`modulus = 1` — `modPow` returns a value in `[0, modulus-1]`; and
`modPow(a, 0, n) = 1` for every `a` and every `n > 1`. -/
theorem modPow_range_claim :
    (∀ b e m : Int, 0 ≤ b → 0 ≤ e → 0 < m → (1 < m ∨ 0 < e) →
      0 ≤ modPow b e m ∧ modPow b e m < m) ∧
    ∀ a n : Int, 1 < n → modPow a 0 n = 1 :=
  ⟨modPow_range, fun a n _ => modPow_zero_exp a n⟩

/-- Witness for the amended claim C3 at `2^10 mod 1000` and `5^0 mod 7`. -/
theorem modPow_range_claim_witness :
    ((0 : Int) ≤ 2 ∧ (0 : Int) ≤ 10 ∧ (0 : Int) < 1000 ∧
      ((1 : Int) < 1000 ∨ (0 : Int) < 10) ∧
      0 ≤ modPow 2 10 1000 ∧ modPow 2 10 1000 < 1000) ∧
    ((1 : Int) < 7 ∧ modPow 5 0 7 = 1) :=
  ⟨⟨by decide, by decide, by decide, by decide,
      modPow_range_claim.1 2 10 1000 (by decide) (by decide) (by decide)
        (by decide)⟩,
    ⟨by decide, modPow_range_claim.2 5 7 (by decide)⟩⟩

/-- Claim C4: whenever `gcd(65537, phi) = 1`, the key generator's exponent
loop accepts the initial `PUBLIC_EXPONENT` at once: the selected exponent is
`65537` for every (even empty) sequence of fallback draws, so the random
fallback search is never entered. -/
theorem exponent_preference_claim (phi : Nat) (h : Nat.gcd 65537 phi = 1)
    (draws : List ℚ) : selectExponent phi draws = some 65537 :=
  selectExponent_65537 phi h draws

/-- Witness for claim C4 at `phi = 120` with no fallback draws available. -/
theorem exponent_preference_claim_witness :
    Nat.gcd 65537 120 = 1 ∧ selectExponent 120 [] = some 65537 :=
  ⟨by decide, exponent_preference_claim 120 (by decide) []⟩

/-- Claim C5 (counterexample): for the odd candidate `n = 11 > 3` the draw
`r = 0` produces the witness `1`, which lies outside the claimed interval
`[max(n-10, 2), n) = [2, 11)`: the code's lower bound is the bare ternary
`n > 10 ? n - 10 : 2`, which is `1` here, not `max(n-10, 2)`. -/
theorem witness_interval_counterexample :
    millerRabinWitness 11 0 = 1 ∧
      ¬ (max ((11 : Int) - 10) 2 ≤ millerRabinWitness 11 0) :=
  ⟨by decide, by decide⟩

/-- Claim C5 (amended): every witness the generator can produce for an odd
candidate `n > 3` lies in `[minRandom, n)` with `minRandom = n - 10` for
`n > 10` and `2` otherwise; this equals the claimed `[max(n-10, 2), n)` for
every such `n` except `n = 11`, where witnesses start at `1`. -/
theorem witness_interval_claim (n : Nat) (r : ℚ) (hodd : n % 2 = 1)
    (hn : 3 < n) (hr0 : 0 ≤ r) (hr1 : r < 1) :
    millerRabinMin n ≤ millerRabinWitness n r ∧
      millerRabinWitness n r < (n : Int) ∧
      (n ≠ 11 → max ((n : Int) - 10) 2 ≤ millerRabinWitness n r) := by
  obtain ⟨h1, h2⟩ := millerRabinWitness_mem n r hn hr0 hr1
  refine ⟨h1, h2, fun hne => ?_⟩
  rcases Nat.lt_or_ge n 11 with h10 | h12
  · have hmin : millerRabinMin n = 2 := by
      unfold millerRabinMin
      rw [if_neg (by exact_mod_cast (by omega : ¬ (10 < n)))]
    rw [max_eq_right (by
      have : (n : Int) ≤ 10 := by exact_mod_cast (by omega : n ≤ 10)
      omega)]
    omega
  · have h12' : 12 ≤ n := by omega
    have hmin : millerRabinMin n = (n : Int) - 10 := by
      unfold millerRabinMin
      rw [if_pos (by exact_mod_cast (by omega : 10 < n))]
    rw [max_eq_left (by
      have : (12 : Int) ≤ (n : Int) := by exact_mod_cast h12'
      omega)]
    omega

/-- Witness for the amended claim C5 at `n = 15`, `r = 1/2` (witness 10). -/
theorem witness_interval_claim_witness :
    (15 % 2 = 1 ∧ 3 < 15 ∧ (0 : ℚ) ≤ 1 / 2 ∧ (1 / 2 : ℚ) < 1) ∧
    (millerRabinMin 15 ≤ millerRabinWitness 15 (1 / 2) ∧
      millerRabinWitness 15 (1 / 2) < ((15 : Nat) : Int) ∧
      ((15 : Nat) ≠ 11 → max (((15 : Nat) : Int) - 10) 2 ≤ millerRabinWitness 15 (1 / 2))) :=
  ⟨⟨by decide, by decide, by decide, by decide⟩,
    witness_interval_claim 15 (1 / 2) (by decide) (by decide) (by decide) (by decide)⟩

/-- Claim C6 (code evaluation at the failing input): with bit length `2` and
a below-half random draw, the "odd number" generator returns `2` — an even
candidate.  The code forces only the top bit; the bottom bit is left to the
random fill, contradicting the generator's own name and the specified
"bottom bit forced to 1". -/
theorem generateRandomOddNumber_even_candidate :
    generateRandomOddNumber 2 zeroDraws = 2 ∧ 2 % 2 = 0 :=
  ⟨by decide, by decide⟩

/-- Claim C7: for every public-key token decoding to `(e, n)` with `n > 1`
and every plaintext, `encryptWorker` serializes exactly the units
`modPow(c, e, n)`, and every such unit lies in `[0, n)`. -/
theorem ciphertext_unit_range_claim (key : List Nat) (e n : Int)
    (msg : List Nat) (hdec : decodeKeyFields key = some (e, n)) (hn : 1 < n) :
    encryptWorker msg key = some (renderUnits (encryptUnits msg e n)) ∧
    ∀ u ∈ encryptUnits msg e n, 0 ≤ u ∧ u < n := by
  constructor
  · unfold encryptWorker
    rw [hdec]
  · exact encryptUnits_range msg e n hn

/-- Witness for claim C7 at the key token for `(e, n) = (3, 5)` and the
one-character message `[2]`. -/
theorem ciphertext_unit_range_claim_witness :
    (decodeKeyFields (encodeKey 3 5) = some (3, 5) ∧ (1 : Int) < 5) ∧
    (encryptWorker [2] (encodeKey 3 5) =
        some (renderUnits (encryptUnits [2] 3 5)) ∧
      ∀ u ∈ encryptUnits [2] 3 5, 0 ≤ u ∧ u < 5) :=
  ⟨⟨by decide, by decide⟩,
    ciphertext_unit_range_claim (encodeKey 3 5) 3 5 [2] (by decide) (by decide)⟩

/-- Claim C9 (counterexample): `modPow` has no precondition guard: with
`modulus = 5 > 0` and `exponent = -1 < 0` it silently returns the value `1`
instead of failing with an arithmetic-precondition error. -/
theorem modPow_guard_counterexample :
    modPow 2 (-1) 5 = 1 := by
  decide

/-- Claim C9 (amended): for every positive modulus and negative exponent,
`modPow` silently returns `1` — the loop guard is simply never entered and
no precondition failure is raised (only `modulus = 0` raises, as a bare
division-by-zero `RangeError`). -/
theorem modPow_no_guard_claim (b e m : Int) (hm : 0 < m) (he : e < 0) :
    modPow b e m = 1 :=
  modPow_neg_exp b e m he

/-- Witness for the amended claim C9 at `modPow(2, -1, 5)`. -/
theorem modPow_no_guard_claim_witness :
    ((0 : Int) < 5 ∧ (-1 : Int) < 0) ∧ modPow 2 (-1) 5 = 1 :=
  ⟨⟨by decide, by decide⟩, modPow_no_guard_claim 2 (-1) 5 (by decide) (by decide)⟩

/-- Claim C10: encrypting the empty plaintext yields the empty ciphertext
token, but decrypting the empty token under a private key with `d ≥ 1` and
`n > 1` yields the one-character string of code point `0` (the empty token
splits into one empty field, parsed by `BigInt` as `0`), so the round trip
fails on the empty plaintext. -/
theorem empty_plaintext_claim (x : Int) (d n : Nat) (hd : 1 ≤ d) (hn : 1 < n) :
    encryptWorker [] (encodeKey x n) = some [] ∧
    decryptWorker [] (encodeKey (d : Int) n) = some [0] ∧
    some [(0 : Nat)] ≠ some ([] : List Nat) :=
  ⟨encryptWorker_empty x n, decryptWorker_empty d n hd hn, by simp⟩

/-- Witness for claim C10 at the generated private key `(113, 143)`. -/
theorem empty_plaintext_claim_witness :
    (1 ≤ 113 ∧ 1 < 143) ∧
    (encryptWorker [] (encodeKey 65537 143) = some [] ∧
      decryptWorker [] (encodeKey ((113 : Nat) : Int) 143) = some [0] ∧
      some [(0 : Nat)] ≠ some ([] : List Nat)) :=
  ⟨⟨by decide, by decide⟩,
    empty_plaintext_claim 65537 113 143 (by decide) (by decide)⟩

end RSA

namespace ConsoleInterface

/-- Claim C8 (counterexample): on the undecodable token `"!"` (`[33]`) the
validator does not return `false` — it propagates the `atob` failure (the
thrown `InvalidCharacterError`), modelled as `none`. -/
theorem validateKey_counterexample :
    atobDecode [33] = none ∧ validateKey [33] = none ∧
      validateKey [33] ≠ some false :=
  ⟨by decide, by decide, by decide⟩

/-- Claim C8 (amended): `validateKey` is a syntactic check that returns a
boolean only on tokens `atob` can decode — `true` exactly when the decoded
bytes contain a comma (at least two comma-separated fields), `false`
exactly when they do not — and raises, rather than returning `false`, on
tokens that fail to decode. -/
theorem validateKey_claim :
    (∀ key : List Nat, atobDecode key = none → validateKey key = none) ∧
    (∀ key bytes, atobDecode key = some bytes →
      ((validateKey key = some true ↔ 44 ∈ bytes) ∧
        (validateKey key = some false ↔ ¬ 44 ∈ bytes))) := by
  constructor
  · intro key h
    unfold validateKey
    rw [h]
  · intro key bytes h
    unfold validateKey
    rw [h]
    constructor
    · simp [RSA.splitComma_two_le_iff]
    · simp [RSA.splitComma_two_le_iff]

/-- Witness for the amended claim C8 at the decodable token for `"1,2"`. -/
theorem validateKey_claim_witness :
    atobDecode (RSA.encodeKey 1 2) = some [49, 44, 50] ∧
    ((validateKey (RSA.encodeKey 1 2) = some true ↔ 44 ∈ [49, 44, 50]) ∧
      (validateKey (RSA.encodeKey 1 2) = some false ↔ ¬ 44 ∈ [49, 44, 50])) :=
  ⟨by decide, validateKey_claim.2 (RSA.encodeKey 1 2) [49, 44, 50] (by decide)⟩

end ConsoleInterface
